import Mathlib

/-!
Verification of the JSONC comment-preserving serializer
(`src/lib/workers/repository/config-migration/branch/stringify-json-preserving-comments.ts`).

The reconciler (`updateObject`, `updatePropertyValue`, `updateArrayValue`,
`updateObjectValue`, `replaceNode`, `removeNode`) and the facade
(`stringifyJsonPreservingComments`) are translated from the source file.
The CST itself and its mutation primitives come from the external
`jsonc-morph` library, which is not part of the repository's files; those
definitions are modelled from the specification's data model (spec sections
3.2, 4.1 and 4.2) and are marked `Modelled from the spec` below.
-/

/-- Plain JSON value graph: the `obj` argument of the facade and every value
reachable from it (numbers are modelled as integers; the configuration
objects involved carry integer numerics). -/
inductive JVal : Type where
  | jnull
  | jbool (b : Bool)
  | jnum (n : Int)
  | jstr (s : String)
  | jarr (xs : List JVal)
  | jobj (kvs : List (String × JVal))

/-- Opening brace as a string. -/
def obrace : String := "\x7b"

/-- Closing brace as a string. -/
def cbrace : String := "\x7d"

/-- Opening brace character. -/
def obraceChar : Char := Char.ofNat 123

/-- Closing brace character. -/
def cbraceChar : Char := Char.ofNat 125

/-- Lower-case hexadecimal digit for `n < 16`. -/
def hexDigit (n : Nat) : Char :=
  if n < 10 then Char.ofNat (48 + n) else Char.ofNat (87 + n)

/-- JSON escaping of one character, as `JSON.stringify` produces it. -/
def escapeChar (c : Char) : String :=
  if c = '"' then "\\\""
  else if c = '\\' then "\\\\"
  else if c = Char.ofNat 8 then "\\b"
  else if c = Char.ofNat 12 then "\\f"
  else if c = '\n' then "\\n"
  else if c = '\r' then "\\r"
  else if c = '\t' then "\\t"
  else if c.toNat < 32 then
    "\\u00" ++ String.singleton (hexDigit (c.toNat / 16)) ++ String.singleton (hexDigit (c.toNat % 16))
  else String.singleton c

/-- Canonical JSON string literal (double quotes, minimal escapes), shared by
the `JSON.stringify` model and the CST's deterministic rendering of new
string lexemes. -/
def jsonQuote (s : String) : String :=
  "\"" ++ String.join (s.toList.map escapeChar) ++ "\""

/-- Join a list of strings with a separator. -/
def joinSep (sep : String) : List String → String
  | [] => ""
  | [x] => x
  | x :: y :: xs => x ++ sep ++ joinSep sep (y :: xs)

/-- `JSON.stringify` truncates a string `space` argument to its first ten
characters (ECMA-262 gap computation). -/
def gapOf (space : String) : String := String.mk (space.data.take 10)

mutual
/-- Model of `JSON.stringify(v, undefined, space)` after the gap has been
computed: ECMA-262 SerializeJSONProperty with string gap `gap` and current
indentation `indent`. With an empty gap the output is fully compact (no
newlines); otherwise members are laid out one per line. -/
def serializeJSONVal (gap indent : String) : JVal → String
  | .jnull => "null"
  | .jbool b => if b then "true" else "false"
  | .jnum n => toString n
  | .jstr s => jsonQuote s
  | .jarr xs =>
    let parts := serializeJSONItems gap (indent ++ gap) xs
    if xs.isEmpty then "[]"
    else if gap = "" then "[" ++ joinSep "," parts ++ "]"
    else "[" ++ "\n" ++ indent ++ gap ++ joinSep ("," ++ "\n" ++ indent ++ gap) parts ++ "\n" ++ indent ++ "]"
  | .jobj kvs =>
    let parts := serializeJSONMembers gap (indent ++ gap) kvs
    if kvs.isEmpty then obrace ++ cbrace
    else if gap = "" then obrace ++ joinSep "," parts ++ cbrace
    else obrace ++ "\n" ++ indent ++ gap ++ joinSep ("," ++ "\n" ++ indent ++ gap) parts ++ "\n" ++ indent ++ cbrace

/-- Serialized array items, in order. -/
def serializeJSONItems (gap indent : String) : List JVal → List String
  | [] => []
  | x :: xs => serializeJSONVal gap indent x :: serializeJSONItems gap indent xs

/-- Serialized object members, in order: `"key":` then a space when the gap
is nonempty, then the member value. -/
def serializeJSONMembers (gap indent : String) : List (String × JVal) → List String
  | [] => []
  | (k, v) :: kvs =>
    (jsonQuote k ++ ":" ++ (if gap = "" then "" else " ") ++ serializeJSONVal gap indent v)
      :: serializeJSONMembers gap indent kvs
end

/-- `JSON.stringify(v, undefined, space)`. -/
def jsonStringify (v : JVal) (space : String) : String :=
  serializeJSONVal (gapOf space) "" v

/-- The TS default for the facade's `indentSpaceFallback` parameter. -/
def indentSpaceFallbackDefault : String := "  "

/-- `n` copies of the indent unit. -/
def indentN (ind : String) : Nat → String
  | 0 => ""
  | n + 1 => ind ++ indentN ind n

mutual
/-- The spec-side printer, written from the spec's words for the fallback
path: a pretty-printed JSON rendering using the given indent, keys in
iteration order, nonempty arrays and objects always multi-line, `": "`
after keys, no trailing newline.  It is compared against the
`JSON.stringify` model in the fallback-determinism theorem. -/
def specPrint (ind : String) (depth : Nat) : JVal → String
  | .jnull => "null"
  | .jbool b => if b then "true" else "false"
  | .jnum n => toString n
  | .jstr s => jsonQuote s
  | .jarr xs =>
    let parts := specPrintItems ind (depth + 1) xs
    if xs.isEmpty then "[]"
    else "[" ++ "\n" ++ indentN ind (depth + 1) ++ joinSep ("," ++ "\n" ++ indentN ind (depth + 1)) parts
      ++ "\n" ++ indentN ind depth ++ "]"
  | .jobj kvs =>
    let parts := specPrintMembers ind (depth + 1) kvs
    if kvs.isEmpty then obrace ++ cbrace
    else obrace ++ "\n" ++ indentN ind (depth + 1) ++ joinSep ("," ++ "\n" ++ indentN ind (depth + 1)) parts
      ++ "\n" ++ indentN ind depth ++ cbrace

/-- Spec-side printed array items. -/
def specPrintItems (ind : String) (depth : Nat) : List JVal → List String
  | [] => []
  | x :: xs => specPrint ind depth x :: specPrintItems ind depth xs

/-- Spec-side printed object members. -/
def specPrintMembers (ind : String) (depth : Nat) : List (String × JVal) → List String
  | [] => []
  | (k, v) :: kvs => (jsonQuote k ++ ": " ++ specPrint ind depth v) :: specPrintMembers ind depth kvs
end

/-- Modelled from the spec (section 3.2): an array element of the CST, with
its leading trivia, its trailing trivia before the comma that follows it
(`trailA`), and the part of its trailing trivia that sits after that comma
up to and including the newline (`trailB`, spec section 4.1's comma-boundary
split).  `α` is instantiated with the node type. -/
structure ElemF (α : Type) where
  lead : String
  node : α
  trailA : String
  trailB : String

/-- Modelled from the spec (section 3.2): a property of the CST: leading
trivia, the raw key lexeme, the decoded key, the colon token with its
surrounding trivia (`mid`), the value node, and the comma-split trailing
trivia as in `ElemF`. -/
structure PropF (α : Type) where
  lead : String
  keyLex : String
  key : String
  mid : String
  node : α
  trailA : String
  trailB : String

/-- Modelled from the spec (sections 3.2 and 4.1): a lossless JSONC CST
node.  Scalars carry their raw lexeme and decoded value; containers carry
their children and their interior-tail trivia (the bytes between the last
child and the closing delimiter; interior-head trivia is the first child's
leading trivia).  Rendering concatenates every token and trivia span in
document order, with the separating comma between consecutive children. -/
inductive CNode : Type where
  | cstr (lex dv : String)
  | cnum (lex : String) (v : Int)
  | cbool (b : Bool)
  | cnull
  | carr (elems : List (ElemF CNode)) (tail : String)
  | cobj (props : List (PropF CNode)) (tail : String)

/-- A CST array element. -/
abbrev CElem := ElemF CNode

/-- A CST property. -/
abbrev CProp := PropF CNode

mutual
/-- Modelled from the spec (section 3.2's round-trip invariant): the text of
a CST node, the concatenation of all tokens and trivia spans in document
order.  A comma is rendered between consecutive children; the last child
renders its `trailA` and `trailB` without a comma. -/
def renderNode : CNode → String
  | .cstr lex _ => lex
  | .cnum lex _ => lex
  | .cbool b => if b then "true" else "false"
  | .cnull => "null"
  | .carr elems tail => "[" ++ renderElems elems ++ tail ++ "]"
  | .cobj props tail => obrace ++ renderProps props ++ tail ++ cbrace

/-- Rendered element list of an array. -/
def renderElems : List CElem → String
  | [] => ""
  | [e] => e.lead ++ renderNode e.node ++ e.trailA ++ e.trailB
  | e :: e2 :: es => e.lead ++ renderNode e.node ++ e.trailA ++ "," ++ e.trailB ++ renderElems (e2 :: es)

/-- Rendered property list of an object. -/
def renderProps : List CProp → String
  | [] => ""
  | [p] => p.lead ++ p.keyLex ++ p.mid ++ renderNode p.node ++ p.trailA ++ p.trailB
  | p :: p2 :: ps =>
    p.lead ++ p.keyLex ++ p.mid ++ renderNode p.node ++ p.trailA ++ "," ++ p.trailB ++ renderProps (p2 :: ps)
end

mutual
/-- The plain value graph of a CST node (`decodedValue` through the tree):
what parsing the rendered text as plain JSON would produce. -/
def plainNode : CNode → JVal
  | .cstr _ dv => .jstr dv
  | .cnum _ v => .jnum v
  | .cbool b => .jbool b
  | .cnull => .jnull
  | .carr elems _ => .jarr (plainElems elems)
  | .cobj props _ => .jobj (plainProps props)

/-- Plain values of an element list. -/
def plainElems : List CElem → List JVal
  | [] => []
  | e :: es => plainNode e.node :: plainElems es

/-- Plain key/value entries of a property list, in property order: the
`Object.entries` view of the parsed object. -/
def plainProps : List CProp → List (String × JVal)
  | [] => []
  | p :: ps => (p.key, plainNode p.node) :: plainProps ps
end

mutual
/-- Modelled from the spec (section 4.2): the deterministic rendering of a
freshly created value: canonical scalar lexemes (minimal escapes, shortest
number form), containers initially single-line with no interior trivia and
`": "` after keys. -/
def freshNode : JVal → CNode
  | .jnull => .cnull
  | .jbool b => .cbool b
  | .jnum n => .cnum (toString n) n
  | .jstr s => .cstr (jsonQuote s) s
  | .jarr xs => .carr (freshElems xs) ""
  | .jobj kvs => .cobj (freshProps kvs) ""

/-- Fresh single-line elements. -/
def freshElems : List JVal → List CElem
  | [] => []
  | x :: xs => { lead := "", node := freshNode x, trailA := "", trailB := "" } :: freshElems xs

/-- Fresh single-line properties. -/
def freshProps : List (String × JVal) → List CProp
  | [] => []
  | (k, v) :: kvs =>
    { lead := "", keyLex := jsonQuote k, key := k, mid := ": ", node := freshNode v, trailA := "", trailB := "" }
      :: freshProps kvs
end

mutual
/-- A node is in fresh form when it is exactly what `freshNode` would
produce for its own plain value: canonical scalar lexemes and, in
containers, empty trivia everywhere.  Replacing such a node by a freshly
rendered copy of its value is the identity. -/
def freshForm : CNode → Bool
  | .cstr lex dv => lex == jsonQuote dv
  | .cnum lex v => lex == toString v
  | .cbool _ => true
  | .cnull => true
  | .carr elems tail => tail == "" && freshFormElems elems
  | .cobj props tail => tail == "" && freshFormProps props

/-- Fresh form of an element list. -/
def freshFormElems : List CElem → Bool
  | [] => true
  | e :: es => e.lead == "" && e.trailA == "" && e.trailB == "" && freshForm e.node && freshFormElems es

/-- Fresh form of a property list. -/
def freshFormProps : List CProp → Bool
  | [] => true
  | p :: ps =>
    p.lead == "" && p.keyLex == jsonQuote p.key && p.mid == ": " && p.trailA == "" && p.trailB == ""
      && freshForm p.node && freshFormProps ps
end

mutual
/-- Canonical form: the sources on which the reconciler's unconditional
`setValue`/`replaceWith` rewrites are byte-invisible.  Scalar lexemes are
canonical, and every array element (which `updateArrayValue` replaces
wholesale, with no per-element recursion) is in fresh form. -/
def canon : CNode → Bool
  | .cstr lex dv => lex == jsonQuote dv
  | .cnum lex v => lex == toString v
  | .cbool _ => true
  | .cnull => true
  | .carr elems _ => canonElems elems
  | .cobj props _ => canonProps props

/-- Canonical form of an element list: each element node is in fresh form. -/
def canonElems : List CElem → Bool
  | [] => true
  | e :: es => freshForm e.node && canonElems es

/-- Canonical form of a property list. -/
def canonProps : List CProp → Bool
  | [] => true
  | p :: ps => canon p.node && canonProps ps
end

/-- The keys of a property list, in order. -/
def propKeys (ps : List CProp) : List String := ps.map (fun p => p.key)

/-- No string occurs twice. -/
def keysNodup : List String → Bool
  | [] => true
  | k :: ks => !(ks.contains k) && keysNodup ks

mutual
/-- Every object along the object spine of the CST has pairwise distinct
keys (the spec's parser invariant; array elements are not constrained
because the reconciler replaces them wholesale). -/
def objNodup : CNode → Bool
  | .cobj props _ => keysNodup (propKeys props) && objNodupProps props
  | _ => true

/-- `objNodup` through a property list. -/
def objNodupProps : List CProp → Bool
  | [] => true
  | p :: ps => objNodup p.node && objNodupProps ps
end

/-- `node.isString()`. -/
def isString : CNode → Bool
  | .cstr _ _ => true
  | _ => false

/-- `node.isNumber()`. -/
def isNumber : CNode → Bool
  | .cnum _ _ => true
  | _ => false

/-- `node.isBoolean()`. -/
def isBoolean : CNode → Bool
  | .cbool _ => true
  | _ => false

/-- `node.isNull()`. -/
def isNull : CNode → Bool
  | .cnull => true
  | _ => false

/-- `node.isContainer()`: an array or an object. -/
def isContainer : CNode → Bool
  | .carr _ _ => true
  | .cobj _ _ => true
  | _ => false

/-- `node.asStringLit()`: the node when it is a string literal, otherwise
nothing (the `?.` guard then skips the call). -/
def asStringLit : CNode → Option CNode
  | .cstr lex dv => some (.cstr lex dv)
  | _ => none

/-- `node.asNumberLit()`. -/
def asNumberLit : CNode → Option CNode
  | .cnum lex v => some (.cnum lex v)
  | _ => none

/-- `node.asBooleanLit()`. -/
def asBooleanLit : CNode → Option CNode
  | .cbool b => some (.cbool b)
  | _ => none

/-- `node.asNullKeyword()`. -/
def asNullKeyword : CNode → Option CNode
  | .cnull => some .cnull
  | _ => none

/-- `node.asArray()`. -/
def asArray : CNode → Option CNode
  | .carr elems tail => some (.carr elems tail)
  | _ => none

/-- `node.asObject()`. -/
def asObject : CNode → Option CNode
  | .cobj props tail => some (.cobj props tail)
  | _ => none

/-- Translation of `replaceNode` (source lines 107 to 124): dispatch on the
node's kind, narrow with the matching `as*` accessor, and call the typed
node's `replaceWith(newValue)`, which substitutes a freshly rendered value
in the node's slot (the element's surrounding trivia lives in `ElemF` and
is untouched).  A node matching no kind predicate is returned unchanged,
and each narrowing is guarded, so no case can fail. -/
def replaceNode (node : CNode) (newValue : JVal) : CNode :=
  if isString node then
    match asStringLit node with
    | some _ => freshNode newValue
    | none => node
  else if isNumber node then
    match asNumberLit node with
    | some _ => freshNode newValue
    | none => node
  else if isBoolean node then
    match asBooleanLit node with
    | some _ => freshNode newValue
    | none => node
  else if isNull node then
    match asNullKeyword node with
    | some _ => freshNode newValue
    | none => node
  else if isContainer node then
    match asArray node with
    | some _ => freshNode newValue
    | none =>
      match asObject node with
      | some _ => freshNode newValue
      | none => node
  else node

/-- Translation of `removeNode` (source lines 129 to 146): the same kind
dispatch; `true` when some branch performed the typed `remove()` (the
caller's list then drops the element), `false` when the node fell through
every guard and nothing happened. -/
def removeNodePerformed (node : CNode) : Bool :=
  if isString node then (asStringLit node).isSome
  else if isNumber node then (asNumberLit node).isSome
  else if isBoolean node then (asBooleanLit node).isSome
  else if isNull node then (asNullKeyword node).isSome
  else if isContainer node then
    match asArray node with
    | some _ => true
    | none => (asObject node).isSome
  else false

/-- Modelled from the spec (section 4.2): `array.ensure_multiline()`.  When
the array already renders with a newline it is unchanged (idempotence);
otherwise each element is moved to its own line and the closing bracket to
its own line, with the default two-space level (the model does not track
the enclosing column, which the spec leaves to inference). -/
def ensureMultiline (n : CNode) : CNode :=
  match n with
  | .carr elems tail =>
    if (renderNode (.carr elems tail)).contains '\n' then .carr elems tail
    else .carr (elems.map (fun e => { lead := "\n  ", node := e.node, trailA := "", trailB := "" })) "\n"
  | other => other

/-- `prop.ensureMultiline` through `valueIfArray`: only an array value is
rewritten. -/
def ensureMultilineProp (p : CProp) : CProp :=
  { p with node := ensureMultiline p.node }

/-- Modelled from the spec (section 4.2): `prop.setValue(v)` rewrites the
property's value slot with a freshly rendered `v`, preserving the
property's key and every trivia span. -/
def setPropValue (v : JVal) (p : CProp) : CProp :=
  { p with node := freshNode v }

/-- Modelled from the spec (section 4.2): `property.replaceWith(new_key, v)`
replaces key and value in place; the property's trivia, including the
trailing trivia after the value and after the comma (inline comments), is
preserved. -/
def replacePropWith (newKey : String) (v : JVal) (p : CProp) : CProp :=
  { p with keyLex := jsonQuote newKey, key := newKey, node := freshNode v }

/-- Remove the element at an index (identity when out of range). -/
def removeAt {α : Type} : List α → Nat → List α
  | [], _ => []
  | _ :: xs, 0 => xs
  | x :: xs, n + 1 => x :: removeAt xs n

/-- Translation of the removal loop of `updateArrayValue` (source lines 157
to 159): `for i = existingElements.length - 1; i >= value.length; i--`
remove element `i`.  The first argument `n` is one past the next index to
visit; each `removeNode` call removes the last element still in range. -/
def removeExcessGo : List CElem → Nat → Nat → List CElem
  | es, 0, _ => es
  | es, Nat.succ i, m => if i < m then es else removeExcessGo (removeAt es i) i m

/-- Translation of the replace-or-append loop of `updateArrayValue` (source
lines 162 to 168): for each target index, replace the surviving existing
element in place (via `replaceNode`, keeping the element's trivia) or
append a fresh element past the end. -/
def replaceAppend : List CElem → List JVal → List CElem
  | es, [] => es
  | [], x :: xs => { lead := "", node := freshNode x, trailA := "", trailB := "" } :: replaceAppend [] xs
  | e :: es, x :: xs => { e with node := replaceNode e.node x } :: replaceAppend es xs

/-- Translation of `updateArrayValue` (source lines 151 to 179): when the
current value is an array, remove the excess elements from the end, then
replace or append by index; otherwise `setValue` the whole array and make
it multi-line when nonempty. -/
def updateArrayValue (xs : List JVal) (p : CProp) : CProp :=
  match p.node with
  | .carr elems tail =>
    { p with node := .carr (replaceAppend (removeExcessGo elems elems.length xs.length) xs) tail }
  | _ =>
    let p1 := setPropValue (.jarr xs) p
    if xs.isEmpty then p1 else { p1 with node := ensureMultiline p1.node }

/-- Working property list of an object being reconciled: each property is
tagged with a stable identity so that the source's node references
(`existingProp`, `prop.propertyIndex()`, `prop.remove()`) survive inserts
and removals. -/
abbrev WProps := List (Nat × CProp)

/-- Loop state of `updateObject`: the current property list, the insertion
cursor, the processed-key set, the removal-candidate set, and the next
fresh identity. -/
structure LoopSt where
  ps : WProps
  insertIndex : Nat
  processed : List String
  toRemove : List String
  nextId : Nat

/-- Number the properties from a starting index: the stable identities of
the existing properties. -/
def enumFrom {α : Type} : Nat → List α → List (Nat × α)
  | _, [] => []
  | n, x :: xs => (n, x) :: enumFrom (n + 1) xs

/-- `existingProps.get(key)` of the map built at entry: the identity of the
first existing property with this decoded key. -/
def findId (existing : List (String × Nat)) (k : String) : Option Nat :=
  (existing.find? (fun e => e.1 == k)).map (fun e => e.2)

/-- `prop.propertyIndex()`: the current index of the property with this
identity. -/
def idxOfId (ps : WProps) (id : Nat) : Nat :=
  ps.findIdx (fun e => e.1 == id)

/-- Mutate the property with this identity in place. -/
def updateById (ps : WProps) (id : Nat) (f : CProp → CProp) : WProps :=
  ps.map (fun e => if e.1 == id then (e.1, f e.2) else e)

/-- `targetObj.get(key)` followed by a mutation: rewrite the first property
whose current key matches. -/
def updateFirstByKey : WProps → String → (CProp → CProp) → WProps
  | [], _, _ => []
  | e :: es, k, f => if e.2.key == k then (e.1, f e.2) :: es else e :: updateFirstByKey es k f

/-- `targetObj.insert(i, ...)`: insert at index `i` (append when `i` is past
the end). -/
def insertAt {α : Type} : List α → Nat → α → List α
  | xs, 0, a => a :: xs
  | [], _ + 1, a => [a]
  | x :: xs, n + 1, a => x :: insertAt xs n a

/-- `key in newObj` for the `Object.entries` view. -/
def entriesHaveKey (newObj : List (String × JVal)) (k : String) : Bool :=
  newObj.any (fun kv => kv.1 == k)

/-- Modelled from the spec (sections 4.2 and 9): the synthesized leading
trivia of an inserted property, inferred from the enclosing object's
existing siblings: the newline-plus-indentation of the last sibling's
leading trivia, defaulting to a newline and two spaces. -/
def synthLead (ps : WProps) : String :=
  match ps.getLast? with
  | some e =>
    let d := e.2.lead.data
    if d.contains '\n' then String.mk ('\n' :: (d.reverse.takeWhile (fun c => c != '\n')).reverse)
    else "\n  "
  | none => "\n  "

/-- The freshly inserted property of the source's insert branch (lines 70
to 76): synthesized lead, canonical key lexeme, `": "`, fresh value node,
empty trailing trivia; a nonempty array value is made multi-line. -/
def mkInsertProp (ps : WProps) (key : String) (v : JVal) : CProp :=
  let base : CProp :=
    { lead := synthLead ps, keyLex := jsonQuote key, key := key, mid := ": ",
      node := freshNode v, trailA := "", trailB := "" }
  match v with
  | .jarr (_ :: _) => { base with node := ensureMultiline base.node }
  | _ => base

/-- The rename-candidate search of the source (lines 43 to 53): the first
entry of `existingProps`, in insertion order, whose key is still a removal
candidate, has not been processed, and whose current `propertyIndex()`
equals the insertion cursor. -/
def findRename (existing : List (String × Nat)) (toRemove processed : List String)
    (ps : WProps) (insertIndex : Nat) : Option (String × Nat) :=
  existing.find? (fun e =>
    toRemove.contains e.1 && !(processed.contains e.1) && (idxOfId ps e.2 == insertIndex))

/-- The state built at the top of `updateObject` (source lines 14 to 29):
the keyed map of existing properties, and the initial loop state with the
removal candidates (existing keys absent from `newObj`). -/
def initLoopState (props : List CProp) (newObj : List (String × JVal)) :
    List (String × Nat) × LoopSt :=
  let ps := enumFrom 0 props
  let existing := ps.map (fun e => (e.2.key, e.1))
  let toRemove := (existing.map (fun e => e.1)).filter (fun k => !(entriesHaveKey newObj k))
  (existing, { ps := ps, insertIndex := 0, processed := [], toRemove := toRemove, nextId := props.length })

/-- The removal phase of `updateObject` (source lines 82 to 86): for each
entry of `existingProps` whose key is still a removal candidate, remove the
referenced property from the current list. -/
def removalPhase (existing : List (String × Nat)) (st : LoopSt) : WProps :=
  let removedIds := existing.filterMap (fun e => if st.toRemove.contains e.1 then some e.2 else none)
  st.ps.filter (fun e => !(removedIds.contains e.1))

mutual
/-- Translation of `updateObject` (source lines 9 to 87): build the keyed
view of the existing properties and the removal-candidate set, run the
target-entry loop, then run the removal phase.  The interior-tail trivia of
the object is untouched. -/
def updateObject (props : List CProp) (tail : String) (newObj : List (String × JVal)) :
    List CProp × String :=
  let ie := initLoopState props newObj
  let st := updateLoop ie.1 newObj ie.2
  ((removalPhase ie.1 st).map (fun e => e.2), tail)
termination_by (sizeOf newObj, 3)

/-- The `for (const [key, value] of Object.entries(newObj))` loop. -/
def updateLoop (existing : List (String × Nat)) (newObj : List (String × JVal)) (st : LoopSt) :
    LoopSt :=
  match newObj with
  | [] => st
  | (k, v) :: rest => updateLoop existing rest (processEntry existing k v st)
termination_by (sizeOf newObj, 2)

/-- One iteration of the target-entry loop (source lines 32 to 79): an
existing key is updated in place and the cursor moves past it; a new key is
first checked against the rename candidates at the cursor position, which
replaces the old property in place, and otherwise inserted at the cursor. -/
def processEntry (existing : List (String × Nat)) (key : String) (value : JVal) (st : LoopSt) :
    LoopSt :=
  let processed := key :: st.processed
  match findId existing key with
  | some id =>
    let ps := updateById st.ps id (updatePropertyValue value)
    { st with ps := ps, processed := processed, insertIndex := idxOfId ps id + 1 }
  | none =>
    match findRename existing st.toRemove processed st.ps st.insertIndex with
    | some (oldKey, oid) =>
      let ps0 := updateById st.ps oid (replacePropWith key value)
      let ps1 :=
        match value with
        | .jarr (_ :: _) => updateFirstByKey ps0 key ensureMultilineProp
        | _ => ps0
      { ps := ps1, insertIndex := idxOfId ps1 oid + 1, processed := oldKey :: processed,
        toRemove := st.toRemove.erase oldKey, nextId := st.nextId }
    | none =>
      let ps := insertAt st.ps st.insertIndex (st.nextId, mkInsertProp st.ps key value)
      { ps := ps, insertIndex := st.insertIndex + 1, processed := processed,
        toRemove := st.toRemove, nextId := st.nextId + 1 }
termination_by (sizeOf value, 2)

/-- Translation of `updatePropertyValue` (source lines 93 to 102): arrays to
the array updater, non-null objects to the object updater, and every other
value (null included) to `setValue`. -/
def updatePropertyValue (value : JVal) (p : CProp) : CProp :=
  match value with
  | .jarr xs => updateArrayValue xs p
  | .jobj kvs => updateObjectValue kvs p
  | v => setPropValue v p
termination_by (sizeOf value, 1)

/-- Translation of `updateObjectValue` (source lines 184 to 193): recurse
into an existing object value, otherwise replace the whole value. -/
def updateObjectValue (kvs : List (String × JVal)) (p : CProp) : CProp :=
  match p.node with
  | .cobj props tail =>
    let r := updateObject props tail kvs
    { p with node := .cobj r.1 r.2 }
  | _ => setPropValue (.jobj kvs) p
termination_by (sizeOf kvs, 4)
end

/-- The warning message of the facade's fallback path. -/
def warnMessage : String :=
  "Failed to preserve comments during JSON serialization, falling back to standard JSON"

/-- The error payload `asObjectOrThrow` raises on a non-object root. -/
def nonObjectError : String := "asObjectOrThrow: root value is not an object"

/-- Translation of `stringifyJsonPreservingComments` (source lines 208 to
236) over a pre-parsed original: `none` models a null `originalContent`;
`some (.error e)` models a `parse` call that throws `e`; `some (.ok root)`
models a successful parse of the original text into the CST `root` (the
parser is lossless, so the original text is `renderNode root`).  The result
pairs the returned string with the emitted warnings, each carrying its
`{ error }` field and message. -/
def stringifyJsonPreservingComments (kvs : List (String × JVal))
    (original : Option (Except String CNode)) (indentSpaceFallback : String) :
    String × List (String × String) :=
  match original with
  | none => (jsonStringify (.jobj kvs) indentSpaceFallback, [])
  | some (.error e) =>
    (jsonStringify (.jobj kvs) indentSpaceFallback, [(e, warnMessage)])
  | some (.ok root) =>
    match root with
    | .cobj props tail =>
      let r := updateObject props tail kvs
      (renderNode (.cobj r.1 r.2), [])
    | _ =>
      (jsonStringify (.jobj kvs) indentSpaceFallback, [(nonObjectError, warnMessage)])

/-- One property rendered with its following comma (the segment a non-last
property contributes to the object's text). -/
def propSegComma (p : CProp) : String :=
  p.lead ++ p.keyLex ++ p.mid ++ renderNode p.node ++ p.trailA ++ "," ++ p.trailB

/-- One property rendered without a following comma (the segment the last
property contributes). -/
def propSegLast (p : CProp) : String :=
  p.lead ++ p.keyLex ++ p.mid ++ renderNode p.node ++ p.trailA ++ p.trailB

/-- A property list rendered with a comma after every property (the form the
non-final part of an object's property list takes). -/
def renderPropsSeg : List CProp → String
  | [] => ""
  | p :: ps => propSegComma p ++ renderPropsSeg ps

/-- Round-trip counterexample input: the properties of a parsed object whose
single property holds an array with one container element whose interior
trivia is not in fresh form (the inner array renders as `[ ]`). -/
def rtCounterProps : List CProp :=
  [{ lead := "\n  ", keyLex := "\"a\"", key := "a", mid := ": ",
     node := (CNode.carr [{ lead := " ", node := CNode.carr [] " ", trailA := "", trailB := "" }] ""),
     trailA := "", trailB := "" }]

/-- The parsed CST of the round-trip counterexample source. -/
def rtCounterCst : CNode := .cobj rtCounterProps "\n"

/-! ## Induction principles -/

theorem cnode_ind (P : CNode → Prop)
    (hstr : ∀ lex dv, P (.cstr lex dv))
    (hnum : ∀ lex v, P (.cnum lex v))
    (hbool : ∀ b, P (.cbool b))
    (hnull : P .cnull)
    (harr : ∀ elems tail, (∀ e ∈ elems, P (ElemF.node e)) → P (.carr elems tail))
    (hobj : ∀ props tail, (∀ p ∈ props, P (PropF.node p)) → P (.cobj props tail)) :
    ∀ n, P n := by
  have key : ∀ k n, sizeOf n ≤ k → P n := by
    intro k
    induction k with
    | zero => intro n h; cases n <;> simp at h
    | succ k ih =>
      intro n h
      cases n with
      | cstr lex dv => exact hstr lex dv
      | cnum lex v => exact hnum lex v
      | cbool b => exact hbool b
      | cnull => exact hnull
      | carr elems tail =>
        refine harr elems tail fun e he => ih e.node ?_
        have h1 : sizeOf e.node < sizeOf e := by cases e; simp; omega
        have h2 : sizeOf e < sizeOf elems := List.sizeOf_lt_of_mem he
        have h3 : sizeOf elems < sizeOf (CNode.carr elems tail) := by simp; omega
        omega
      | cobj props tail =>
        refine hobj props tail fun p hp => ih p.node ?_
        have h1 : sizeOf p.node < sizeOf p := by cases p; simp; omega
        have h2 : sizeOf p < sizeOf props := List.sizeOf_lt_of_mem hp
        have h3 : sizeOf props < sizeOf (CNode.cobj props tail) := by simp; omega
        omega
  exact fun n => key (sizeOf n) n (Nat.le_refl _)

theorem jval_ind (P : JVal → Prop)
    (hnull : P .jnull)
    (hbool : ∀ b, P (.jbool b))
    (hnum : ∀ n, P (.jnum n))
    (hstr : ∀ s, P (.jstr s))
    (harr : ∀ xs, (∀ x ∈ xs, P x) → P (.jarr xs))
    (hobj : ∀ kvs, (∀ kv ∈ kvs, P (Prod.snd kv)) → P (.jobj kvs)) :
    ∀ v, P v := by
  have key : ∀ k v, sizeOf v ≤ k → P v := by
    intro k
    induction k with
    | zero => intro v h; cases v <;> simp at h
    | succ k ih =>
      intro v h
      cases v with
      | jnull => exact hnull
      | jbool b => exact hbool b
      | jnum n => exact hnum n
      | jstr s => exact hstr s
      | jarr xs =>
        refine harr xs fun x hx => ih x ?_
        have h2 : sizeOf x < sizeOf xs := List.sizeOf_lt_of_mem hx
        have h3 : sizeOf xs < sizeOf (JVal.jarr xs) := by simp
        omega
      | jobj kvs =>
        refine hobj kvs fun kv hkv => ih kv.2 ?_
        have h1 : sizeOf kv.2 < sizeOf kv := by cases kv; simp
        have h2 : sizeOf kv < sizeOf kvs := List.sizeOf_lt_of_mem hkv
        have h3 : sizeOf kvs < sizeOf (JVal.jobj kvs) := by simp
        omega
  exact fun v => key (sizeOf v) v (Nat.le_refl _)

/-! ## Fresh form and node replacement -/

theorem freshForm_sound : ∀ n, freshForm n = true → freshNode (plainNode n) = n := by
  intro n
  induction n using cnode_ind with
  | hstr lex dv =>
    intro h
    simp [freshForm] at h
    simp [plainNode, freshNode, h]
  | hnum lex v =>
    intro h
    simp [freshForm] at h
    simp [plainNode, freshNode, h]
  | hbool b => intro _; simp [plainNode, freshNode]
  | hnull => intro _; simp [plainNode, freshNode]
  | harr elems tail ih =>
    intro h
    simp [freshForm] at h
    obtain ⟨ht, hes⟩ := h
    subst ht
    simp [plainNode, freshNode]
    induction elems with
    | nil => simp [plainElems, freshElems]
    | cons e es ihe =>
      simp [freshFormElems] at hes
      obtain ⟨⟨⟨⟨hl, ha⟩, hb⟩, hn⟩, hrest⟩ := hes
      simp [plainElems, freshElems]
      refine ⟨?_, ?_⟩
      · have hne := ih e (List.mem_cons_self e es) hn
        cases e with
        | mk lead node trailA trailB =>
          simp at hl ha hb hne ⊢
          exact ⟨hl.symm, hne, ha.symm, hb.symm⟩
      · exact ihe (fun x hx hfx => ih x (List.mem_cons_of_mem e hx) hfx) hrest
  | hobj props tail ih =>
    intro h
    simp [freshForm] at h
    obtain ⟨ht, hps⟩ := h
    subst ht
    simp [plainNode, freshNode]
    induction props with
    | nil => simp [plainProps, freshProps]
    | cons p ps ihp =>
      simp [freshFormProps] at hps
      obtain ⟨⟨⟨⟨⟨⟨hl, hk⟩, hm⟩, ha⟩, hb⟩, hn⟩, hrest⟩ := hps
      simp [plainProps, freshProps]
      refine ⟨?_, ?_⟩
      · have hne := ih p (List.mem_cons_self p ps) hn
        cases p with
        | mk lead keyLex key mid node trailA trailB =>
          simp at hl hk hm ha hb hne ⊢
          exact ⟨hl.symm, hk.symm, hm.symm, hne, ha.symm, hb.symm⟩
      · exact ihp (fun x hx hfx => ih x (List.mem_cons_of_mem p hx) hfx) hrest

theorem replaceNode_eq_fresh (n : CNode) (v : JVal) : replaceNode n v = freshNode v := by
  cases n <;> simp [replaceNode, isString, isNumber, isBoolean, isNull, isContainer,
    asStringLit, asNumberLit, asBooleanLit, asNullKeyword, asArray, asObject]

/-- C9: the replace and remove helpers are total over the node kinds: the
five kind predicates are exhaustive (so the fall-through branch that leaves
the node in place and raises nothing is never entered), every kind-specific
narrowing agrees with its guard (a kind mismatch yields nothing and the
optional chaining skips the call, so the helpers cannot throw), and on every
node the replace helper produces the freshly rendered value while the remove
helper performs its removal. -/
theorem claim_C9_node_helpers_total (node : CNode) (v : JVal) :
    (isString node = true ∨ isNumber node = true ∨ isBoolean node = true
      ∨ isNull node = true ∨ isContainer node = true)
    ∧ replaceNode node v = freshNode v
    ∧ removeNodePerformed node = true
    ∧ (asStringLit node).isSome = isString node
    ∧ (asNumberLit node).isSome = isNumber node
    ∧ (asBooleanLit node).isSome = isBoolean node
    ∧ (asNullKeyword node).isSome = isNull node
    ∧ ((asArray node).isSome || (asObject node).isSome) = isContainer node := by
  refine ⟨?_, replaceNode_eq_fresh node v, ?_, ?_, ?_, ?_, ?_, ?_⟩ <;>
    cases node <;>
      simp [isString, isNumber, isBoolean, isNull, isContainer, asStringLit, asNumberLit,
        asBooleanLit, asNullKeyword, asArray, asObject, removeNodePerformed]

/-! ## Array reconciliation -/

theorem removeAt_length_pred {α : Type} :
    ∀ (es : List α) (i : Nat), es.length = i + 1 → removeAt es i = es.take i := by
  intro es
  induction es with
  | nil => intro i h; simp at h
  | cons x xs ih =>
    intro i h
    cases i with
    | zero =>
      have hx : xs = [] := by
        cases xs with
        | nil => rfl
        | cons y ys => simp at h
      simp [removeAt, hx]
    | succ i =>
      simp [removeAt]
      exact ih i (by simpa using h)

theorem removeExcessGo_take (m : Nat) :
    ∀ (n : Nat) (es : List CElem), es.length = n → removeExcessGo es n m = es.take m := by
  intro n
  induction n with
  | zero =>
    intro es h
    have hx : es = [] := List.eq_nil_of_length_eq_zero h
    simp [removeExcessGo, hx]
  | succ i ih =>
    intro es h
    by_cases hc : i < m
    · simp [removeExcessGo, hc]
      omega
    · simp [removeExcessGo, hc]
      rw [removeAt_length_pred es i (by omega)]
      rw [ih (es.take i) (by simp [List.length_take]; omega)]
      rw [List.take_take]
      congr 1
      omega

theorem replaceAppend_eq :
    ∀ (es : List CElem) (xs : List JVal), es.length ≤ xs.length →
      replaceAppend es xs =
        List.zipWith (fun e x => { e with node := freshNode x }) es xs
          ++ freshElems (xs.drop es.length) := by
  intro es
  induction es with
  | nil =>
    intro xs _
    cases xs with
    | nil => simp [replaceAppend, freshElems]
    | cons x xs =>
      simp only [List.zipWith_nil_left, List.nil_append, List.drop_zero]
      have go : ∀ ys : List JVal, replaceAppend [] ys = freshElems ys := by
        intro ys
        induction ys with
        | nil => simp [replaceAppend, freshElems]
        | cons y ys ihy => simp [replaceAppend, freshElems, ihy]
      exact go (x :: xs)
  | cons e es ih =>
    intro xs h
    cases xs with
    | nil => simp at h
    | cons x xs =>
      simp [replaceAppend, replaceNode_eq_fresh]
      exact ih xs (by simpa using h)

/-- C5: array reconciliation.  When the property's current value is an array
of `n` elements and the target is an array of `m` values: the removal loop
(reverse order) leaves the first `m` elements, each surviving element `i` is
replaced in place by a freshly rendered copy of target element `i` with its
own trivia preserved and no structural recursion into it, and the targets
past `n` are appended as fresh elements.  When the current value is not an
array, the whole value is set to the target array, made multi-line when
nonempty. -/
theorem claim_C5_array_reconciliation (xs : List JVal) (p : CProp) :
    (∀ elems tail, p.node = .carr elems tail →
      updateArrayValue xs p =
        { p with node := (CNode.carr
            (List.zipWith (fun e x => { e with node := freshNode x }) (elems.take xs.length) xs
              ++ freshElems (xs.drop elems.length)) tail) })
    ∧ (asArray p.node = none →
      updateArrayValue xs p =
        if xs.isEmpty then { p with node := freshNode (.jarr xs) }
        else { p with node := ensureMultiline (freshNode (.jarr xs)) }) := by
  obtain ⟨l, kl, k, md, nd, ta, tb⟩ := p
  constructor
  · intro elems tail h
    simp at h
    subst h
    simp only [updateArrayValue]
    rw [removeExcessGo_take xs.length elems.length elems rfl]
    rw [replaceAppend_eq (elems.take xs.length) xs (by simp)]
    rcases Nat.le_total elems.length xs.length with hle | hle
    · have h1 : elems.take xs.length = elems := List.take_of_length_le hle
      rw [h1]
    · have h1 : (elems.take xs.length).length = xs.length := by
        simp [List.length_take]; omega
      rw [h1]
      have h2 : xs.drop xs.length = [] := by simp
      have h3 : xs.drop elems.length = [] := List.drop_eq_nil_of_le hle
      rw [h2, h3]
  · intro h
    cases nd <;> simp [asArray] at h <;>
      simp [updateArrayValue, setPropValue]

/-- C7: a property whose target value is a non-null object is reconciled by
recursion into the existing object value when the current value node is an
object, and otherwise by replacing the whole value via `setValue`; a null
target value goes down the primitive `setValue` path (never object
recursion), whatever the current value node is. -/
theorem claim_C7_object_and_null_dispatch (p : CProp) :
    (∀ kvs props tail, p.node = .cobj props tail →
      updatePropertyValue (.jobj kvs) p =
        { p with node := (CNode.cobj (updateObject props tail kvs).1 (updateObject props tail kvs).2) })
    ∧ (∀ kvs, asObject p.node = none →
      updatePropertyValue (.jobj kvs) p = { p with node := freshNode (.jobj kvs) })
    ∧ updatePropertyValue .jnull p = { p with node := CNode.cnull } := by
  obtain ⟨l, kl, k, md, nd, ta, tb⟩ := p
  refine ⟨?_, ?_, ?_⟩
  · intro kvs props tail h
    simp at h
    subst h
    simp [updatePropertyValue, updateObjectValue]
  · intro kvs h
    cases nd <;> simp [asObject] at h <;>
      simp [updatePropertyValue, updateObjectValue, setPropValue]
  · simp [updatePropertyValue, setPropValue, freshNode]

/-! ## Render segment lemmas -/

theorem renderProps_cons_cons (p q : CProp) (ps : List CProp) :
    renderProps (p :: q :: ps) = propSegComma p ++ renderProps (q :: ps) := by
  simp [renderProps, propSegComma]

theorem renderProps_append_last (xs : List CProp) (p : CProp) :
    renderProps (xs ++ [p]) = renderPropsSeg xs ++ propSegLast p := by
  induction xs with
  | nil => simp [renderProps, renderPropsSeg, propSegLast]
  | cons x xs ih =>
    cases xs with
    | nil => simp [renderProps, renderPropsSeg, propSegComma, propSegLast]
    | cons y ys =>
      simp only [List.cons_append] at *
      rw [renderProps_cons_cons, ih]
      simp [renderPropsSeg, String.append_assoc]

theorem renderProps_append_ne_nil (xs ys : List CProp) (hys : ys ≠ []) :
    renderProps (xs ++ ys) = renderPropsSeg xs ++ renderProps ys := by
  induction xs with
  | nil => simp [renderPropsSeg]
  | cons x xs ih =>
    cases xs with
    | nil =>
      cases ys with
      | nil => exact absurd rfl hys
      | cons y ys => simp [renderProps_cons_cons, renderPropsSeg]
    | cons z zs =>
      simp only [List.cons_append] at *
      rw [renderProps_cons_cons, ih]
      simp [renderPropsSeg, String.append_assoc]

/-! ## Working-list surgery lemmas -/

theorem idxOfId_append (pre post : WProps) (oid : Nat) (q : CProp)
    (hpre : ∀ e ∈ pre, e.1 ≠ oid) :
    idxOfId (pre ++ (oid, q) :: post) oid = pre.length := by
  induction pre with
  | nil => simp [idxOfId, List.findIdx_cons]
  | cons x xs ih =>
    have hx : x.1 ≠ oid := hpre x (List.mem_cons_self x xs)
    simp only [idxOfId, List.cons_append, List.findIdx_cons] at *
    have hx2 : (x.1 == oid) = false := by simpa using hx
    simp [hx2]
    exact ih fun e he => hpre e (List.mem_cons_of_mem x he)

theorem updateById_skips (ps : WProps) (oid : Nat) (f : CProp → CProp)
    (h : ∀ e ∈ ps, e.1 ≠ oid) : updateById ps oid f = ps := by
  induction ps with
  | nil => simp [updateById]
  | cons x xs ih =>
    have hx : ¬(x.1 = oid) := h x (List.mem_cons_self x xs)
    have hrest := ih fun e he => h e (List.mem_cons_of_mem x he)
    simp only [updateById, List.map_cons, beq_iff_eq] at hrest ⊢
    simp [hx, hrest]

theorem updateById_append (pre post : WProps) (oid : Nat) (q : CProp) (f : CProp → CProp)
    (hpre : ∀ e ∈ pre, e.1 ≠ oid) (hpost : ∀ e ∈ post, e.1 ≠ oid) :
    updateById (pre ++ (oid, q) :: post) oid f = pre ++ (oid, f q) :: post := by
  have h1 : updateById pre oid f = pre := updateById_skips pre oid f hpre
  have h2 : updateById post oid f = post := updateById_skips post oid f hpost
  simp only [updateById, List.map_append, List.map_cons, beq_iff_eq] at *
  simp [h1, h2]

theorem updateFirstByKey_append (pre post : WProps) (oid : Nat) (q : CProp)
    (k : String) (f : CProp → CProp)
    (hpre : ∀ e ∈ pre, e.2.key ≠ k) (hq : q.key = k) :
    updateFirstByKey (pre ++ (oid, q) :: post) k f = pre ++ (oid, f q) :: post := by
  induction pre with
  | nil => simp [updateFirstByKey, hq]
  | cons x xs ih =>
    have hx : ¬(x.2.key = k) := hpre x (List.mem_cons_self x xs)
    simp only [List.cons_append, updateFirstByKey, beq_iff_eq]
    simp [hx]
    exact ih fun e he => hpre e (List.mem_cons_of_mem x he)

theorem insertAt_length {α : Type} : ∀ (xs : List α) (a : α), insertAt xs xs.length a = xs ++ [a] := by
  intro xs
  induction xs with
  | nil => intro a; simp [insertAt]
  | cons x xs ih => intro a; simp [insertAt, ih]

theorem find?_unique {α : Type} (p : α → Bool) (l : List α) (a : α)
    (ha : a ∈ l) (hpa : p a = true) (huniq : ∀ b ∈ l, p b = true → b = a) :
    l.find? p = some a := by
  induction l with
  | nil => simp at ha
  | cons x xs ih =>
    by_cases hx : p x = true
    · have : x = a := huniq x (List.mem_cons_self x xs) hx
      subst this
      simp [List.find?, hx]
    · have hxa : x ≠ a := fun h => hx (h ▸ hpa)
      have ha2 : a ∈ xs := by
        rcases List.mem_cons.mp ha with h | h
        · exact absurd h.symm hxa
        · exact h
      have hxf : p x = false := by
        cases hpx : p x
        · rfl
        · exact absurd hpx hx
      simp [List.find?, hxf]
      exact ih ha2 fun b hb hpb => huniq b (List.mem_cons_of_mem x hb) hpb

theorem idxOfId_ne_pos (pre post : WProps) (oid : Nat) (q : CProp) (id : Nat)
    (hpre : ∀ e ∈ pre, e.1 ≠ oid) (hne : id ≠ oid) :
    idxOfId (pre ++ (oid, q) :: post) id ≠ pre.length := by
  induction pre with
  | nil =>
    have : (oid == id) = false := by simpa using fun h => hne h.symm
    simp [idxOfId, List.findIdx_cons, this]
  | cons x xs ih =>
    by_cases hx : x.1 = id
    · simp [idxOfId, List.findIdx_cons, hx]
    · have hxf : (x.1 == id) = false := by simpa using hx
      simp only [idxOfId, List.cons_append, List.findIdx_cons, hxf, cond_false, List.length_cons]
      have := ih fun e he => hpre e (List.mem_cons_of_mem x he)
      simp only [idxOfId] at this
      omega

/-- C2: rename detection by positional coincidence.  When the target key is
absent from the existing properties and some existing property `p` has a
removal-candidate key, is unprocessed, and currently sits at the insertion
cursor, the loop body replaces `p` in place (same position) with the new key
and a fresh value, marks both keys processed, takes the old key out of the
removal set, moves the cursor one past `p`, and preserves `p`'s leading,
colon and trailing trivia — including the inline-comment trivia `trailA`
and `trailB` attached after the value and after the comma. -/
theorem claim_C2_rename_by_position (existing : List (String × Nat)) (key : String)
    (value : JVal) (st : LoopSt) (pre post : WProps) (oid : Nat) (p : CProp) (oldKey : String)
    (hex : ∀ e ∈ existing, e.1 ≠ key)
    (hsplit : st.ps = pre ++ (oid, p) :: post)
    (hpre : ∀ e ∈ pre, e.1 ≠ oid)
    (hpost : ∀ e ∈ post, e.1 ≠ oid)
    (hprekey : ∀ e ∈ pre, e.2.key ≠ key)
    (hcursor : st.insertIndex = pre.length)
    (hmem : (oldKey, oid) ∈ existing)
    (hrem : oldKey ∈ st.toRemove)
    (hproc : oldKey ≠ key ∧ oldKey ∉ st.processed)
    (hexuniq : ∀ b ∈ existing, b.2 = oid → b.1 = oldKey) :
    processEntry existing key value st =
      { ps := pre ++ (oid,
          { lead := p.lead, keyLex := jsonQuote key, key := key, mid := p.mid,
            node := (match value with
              | .jarr (_ :: _) => ensureMultiline (freshNode value)
              | _ => freshNode value),
            trailA := p.trailA, trailB := p.trailB }) :: post,
        insertIndex := pre.length + 1,
        processed := oldKey :: key :: st.processed,
        toRemove := st.toRemove.erase oldKey,
        nextId := st.nextId } := by
  have hfid : findId existing key = none := by
    simp [findId, List.find?_eq_none]
    intro a b hab
    exact hex (a, b) hab
  have hidx : idxOfId st.ps oid = pre.length := by
    rw [hsplit]; exact idxOfId_append pre post oid p hpre
  have hfr : findRename existing st.toRemove (key :: st.processed) st.ps st.insertIndex
      = some (oldKey, oid) := by
    apply find?_unique _ _ _ hmem
    · simp only [Bool.and_eq_true, beq_iff_eq]
      refine ⟨⟨?_, ?_⟩, ?_⟩
      · simpa using hrem
      · simpa using hproc
      · rw [hidx, hcursor]
    · intro b hb hcond
      obtain ⟨b1, b2⟩ := b
      simp only [Bool.and_eq_true, beq_iff_eq] at hcond
      obtain ⟨⟨hc1, hc2⟩, hc3⟩ := hcond
      have hb2 : b2 = oid := by
        by_contra hne
        have hnp := idxOfId_ne_pos pre post oid p b2 hpre hne
        rw [← hsplit] at hnp
        rw [hcursor] at hc3
        exact hnp hc3
      have hb1 : b1 = oldKey := hexuniq (b1, b2) hb hb2
      simp [hb1, hb2]
  have hrp : replacePropWith key value p =
      { lead := p.lead, keyLex := jsonQuote key, key := key, mid := p.mid,
        node := freshNode value, trailA := p.trailA, trailB := p.trailB } := by
    obtain ⟨l, kl, k, md, nd, ta, tb⟩ := p
    simp [replacePropWith]
  simp only [processEntry, hfid, hfr]
  rw [hsplit]
  rw [updateById_append pre post oid p _ hpre hpost, hrp]
  cases value with
  | jarr xs =>
    cases xs with
    | nil =>
      rw [idxOfId_append pre post oid _ hpre]
    | cons x xs2 =>
      rw [updateFirstByKey_append pre post oid _ key _ hprekey rfl]
      rw [idxOfId_append pre post oid _ hpre]
      simp [ensureMultilineProp]
  | jnull => rw [idxOfId_append pre post oid _ hpre]
  | jbool b => rw [idxOfId_append pre post oid _ hpre]
  | jnum n => rw [idxOfId_append pre post oid _ hpre]
  | jstr s => rw [idxOfId_append pre post oid _ hpre]
  | jobj kvs => rw [idxOfId_append pre post oid _ hpre]

/-- Witness for C2: a one-property object whose property `"old"` (with an
inline comment in its trailing trivia) is renamed to `"new"` at cursor 0;
the trailing trivia survives and the removal set empties. -/
theorem claim_C2_rename_witness :
    processEntry [("old", 0)] "new" (.jstr "v")
      { ps := [(0, { lead := "\n  ", keyLex := "\"old\"", key := "old", mid := ": ",
                     node := .cstr "\"x\"" "x", trailA := " ", trailB := " // keep\n" })],
        insertIndex := 0, processed := [], toRemove := ["old"], nextId := 1 } =
      { ps := [(0, { lead := "\n  ", keyLex := jsonQuote "new", key := "new", mid := ": ",
                     node := freshNode (.jstr "v"), trailA := " ", trailB := " // keep\n" })],
        insertIndex := 1, processed := ["old", "new"], toRemove := [], nextId := 1 } :=
  claim_C2_rename_by_position [("old", 0)] "new" (.jstr "v")
    { ps := [(0, { lead := "\n  ", keyLex := "\"old\"", key := "old", mid := ": ",
                   node := .cstr "\"x\"" "x", trailA := " ", trailB := " // keep\n" })],
      insertIndex := 0, processed := [], toRemove := ["old"], nextId := 1 }
    [] [] 0
    { lead := "\n  ", keyLex := "\"old\"", key := "old", mid := ": ",
      node := .cstr "\"x\"" "x", trailA := " ", trailB := " // keep\n" } "old"
    (by decide) rfl (by decide) (by decide) (by decide) rfl (by decide) (by decide)
    ⟨by decide, by decide⟩ (by decide)

/-- C8: addition placement.  A target key absent from the existing
properties with no rename candidate is inserted at the current cursor as a
fresh property (synthesized lead, canonical key, `": "`, empty trailing
trivia), made multi-line when its value is a nonempty array; the cursor
advances by one and the removal set is untouched.  Inserting at the end
appends after every existing property, and the rendered object then reads:
every prior property with its comma, the new property's segment, and only
then the interior-tail trivia and the closing brace. -/
theorem claim_C8_addition_placement (existing : List (String × Nat)) (key : String)
    (value : JVal) (st : LoopSt)
    (hex : ∀ e ∈ existing, e.1 ≠ key)
    (hnorename : ∀ e ∈ existing,
      ¬(e.1 ∈ st.toRemove ∧ e.1 ∉ (key :: st.processed) ∧ idxOfId st.ps e.2 = st.insertIndex)) :
    processEntry existing key value st =
      { ps := insertAt st.ps st.insertIndex (st.nextId,
          { lead := synthLead st.ps, keyLex := jsonQuote key, key := key, mid := ": ",
            node := (match value with
              | .jarr (_ :: _) => ensureMultiline (freshNode value)
              | _ => freshNode value),
            trailA := "", trailB := "" }),
        insertIndex := st.insertIndex + 1,
        processed := key :: st.processed,
        toRemove := st.toRemove, nextId := st.nextId + 1 }
    ∧ (∀ q : Nat × CProp, insertAt st.ps st.ps.length q = st.ps ++ [q])
    ∧ (∀ (ps2 : List CProp) (q : CProp) (tail : String),
        renderNode (.cobj (ps2 ++ [q]) tail)
          = obrace ++ renderPropsSeg ps2 ++ propSegLast q ++ tail ++ cbrace) := by
  have hfid : findId existing key = none := by
    simp [findId, List.find?_eq_none]
    intro a b hab
    exact hex (a, b) hab
  have hfr : findRename existing st.toRemove (key :: st.processed) st.ps st.insertIndex
      = none := by
    rw [findRename, List.find?_eq_none]
    intro e he hcontr
    simp at hcontr
    obtain ⟨⟨hm1, hk1, hp1⟩, hi1⟩ := hcontr
    exact hnorename e he ⟨hm1, by simpa using And.intro hk1 hp1, hi1⟩
  refine ⟨?_, ?_, ?_⟩
  · simp only [processEntry, hfid, hfr]
    cases value with
    | jarr xs =>
      cases xs with
      | nil => simp [mkInsertProp]
      | cons x xs2 => simp [mkInsertProp]
    | jnull => simp [mkInsertProp]
    | jbool b => simp [mkInsertProp]
    | jnum n => simp [mkInsertProp]
    | jstr s => simp [mkInsertProp]
    | jobj kvs => simp [mkInsertProp]
  · intro q
    exact insertAt_length st.ps q
  · intro ps2 q tail
    simp only [renderNode, renderProps_append_last]
    simp [String.append_assoc]

/-- Witness for C8: inserting the new key `"a"` into an empty object state. -/
theorem claim_C8_addition_witness :
    processEntry [] "a" (.jnum 1)
      { ps := [], insertIndex := 0, processed := [], toRemove := [], nextId := 0 } =
      { ps := insertAt [] 0 (0,
          { lead := synthLead [], keyLex := jsonQuote "a", key := "a", mid := ": ",
            node := freshNode (.jnum 1), trailA := "", trailB := "" }),
        insertIndex := 1, processed := ["a"], toRemove := [], nextId := 1 }
    ∧ (∀ q : Nat × CProp, insertAt [] 0 q = [] ++ [q])
    ∧ (∀ (ps2 : List CProp) (q : CProp) (tail : String),
        renderNode (.cobj (ps2 ++ [q]) tail)
          = obrace ++ renderPropsSeg ps2 ++ propSegLast q ++ tail ++ cbrace) :=
  claim_C8_addition_placement [] "a" (.jnum 1)
    { ps := [], insertIndex := 0, processed := [], toRemove := [], nextId := 0 }
    (by decide) (by decide)

/-! ## Removal phase -/

theorem processEntry_toRemove_subset (existing : List (String × Nat)) (k : String) (v : JVal)
    (st : LoopSt) : ∀ x ∈ (processEntry existing k v st).toRemove, x ∈ st.toRemove := by
  intro x hx
  cases h1 : findId existing k with
  | some id =>
    simp only [processEntry, h1] at hx
    exact hx
  | none =>
    cases h2 : findRename existing st.toRemove (k :: st.processed) st.ps st.insertIndex with
    | some pr =>
      obtain ⟨ok, oid⟩ := pr
      simp only [processEntry, h1, h2] at hx
      exact List.mem_of_mem_erase hx
    | none =>
      simp only [processEntry, h1, h2] at hx
      exact hx

theorem updateLoop_toRemove_subset (existing : List (String × Nat)) :
    ∀ (newObj : List (String × JVal)) (st : LoopSt),
      ∀ x ∈ (updateLoop existing newObj st).toRemove, x ∈ st.toRemove := by
  intro newObj
  induction newObj with
  | nil =>
    intro st x hx
    simpa [updateLoop] using hx
  | cons kv rest ih =>
    intro st x hx
    obtain ⟨k, v⟩ := kv
    simp only [updateLoop] at hx
    exact processEntry_toRemove_subset existing k v st x (ih (processEntry existing k v st) x hx)

theorem renderPropsSeg_append (xs ys : List CProp) :
    renderPropsSeg (xs ++ ys) = renderPropsSeg xs ++ renderPropsSeg ys := by
  induction xs with
  | nil => simp [renderPropsSeg]
  | cons x xs ih => simp [renderPropsSeg, ih, String.append_assoc]

theorem enumFrom_keyIds_fst (props : List CProp) :
    ∀ n, ((enumFrom n props).map (fun e => (e.2.key, e.1))).map Prod.fst = propKeys props := by
  induction props with
  | nil => intro n; simp [enumFrom, propKeys]
  | cons p ps ih => intro n; simp [enumFrom, propKeys] at ih ⊢; exact ih (n + 1)

/-- C6: removal phase and removal safety.  After the target-key loop the
facade filters out, in place, exactly the existing properties whose key is
still a removal candidate; every key still a candidate was one of the
initial candidates (the loop only removes candidates, via rename
consumption), the initial candidates are exactly the original keys absent
from the target, and every surviving entry is an unchanged entry of the
loop's property list in its original order (a sublist).  Rendering-wise,
deleting a non-final property deletes exactly its segment including its
following comma, and a final property its comma-free segment, while the
bytes of every other property (leading and trailing comment trivia
included) are concatenated unchanged. -/
theorem claim_C6_removal_phase_safety (props : List CProp) (tail : String)
    (newObj : List (String × JVal)) :
    (updateObject props tail newObj =
      (((removalPhase (initLoopState props newObj).1
          (updateLoop (initLoopState props newObj).1 newObj (initLoopState props newObj).2)).map
            Prod.snd), tail))
    ∧ List.Sublist
        (removalPhase (initLoopState props newObj).1
          (updateLoop (initLoopState props newObj).1 newObj (initLoopState props newObj).2))
        (updateLoop (initLoopState props newObj).1 newObj (initLoopState props newObj).2).ps
    ∧ (∀ x ∈ (updateLoop (initLoopState props newObj).1 newObj
          (initLoopState props newObj).2).toRemove,
        x ∈ (initLoopState props newObj).2.toRemove)
    ∧ (∀ x, x ∈ (initLoopState props newObj).2.toRemove ↔
        (x ∈ propKeys props ∧ entriesHaveKey newObj x = false))
    ∧ (∀ (xs ys : List CProp) (p : CProp), ys ≠ [] →
        renderProps (xs ++ p :: ys) = renderPropsSeg xs ++ propSegComma p ++ renderProps ys
          ∧ renderProps (xs ++ ys) = renderPropsSeg xs ++ renderProps ys)
    ∧ (∀ (xs : List CProp) (p : CProp),
        renderProps (xs ++ [p]) = renderPropsSeg xs ++ propSegLast p) := by
  refine ⟨?_, ?_, ?_, ?_, ?_, ?_⟩
  · simp [updateObject]
  · exact List.filter_sublist _
  · exact updateLoop_toRemove_subset _ newObj _
  · intro x
    simp only [initLoopState, List.mem_filter]
    rw [enumFrom_keyIds_fst props 0]
    simp
  · intro xs ys p hys
    constructor
    · have h1 : xs ++ p :: ys = (xs ++ [p]) ++ ys := by simp
      rw [h1, renderProps_append_ne_nil (xs ++ [p]) ys hys, renderPropsSeg_append]
      simp [renderPropsSeg, String.append_assoc]
    · exact renderProps_append_ne_nil xs ys hys
  · exact renderProps_append_last

/-! ## Fallback determinism -/

theorem indentN_comm (ind : String) : ∀ n, indentN ind n ++ ind = ind ++ indentN ind n := by
  intro n
  induction n with
  | zero => simp [indentN]
  | succ n ih => simp only [indentN, String.append_assoc, ih]

theorem indentN_succ_right (ind : String) (n : Nat) :
    indentN ind n ++ ind = indentN ind (n + 1) := by
  rw [indentN_comm]
  rfl

theorem serializeItems_spec (gap : String) :
    ∀ (xs : List JVal) (depth : Nat),
      (∀ x ∈ xs, ∀ d, serializeJSONVal gap (indentN gap d) x = specPrint gap d x) →
      serializeJSONItems gap (indentN gap depth) xs = specPrintItems gap depth xs := by
  intro xs
  induction xs with
  | nil => intro depth _; simp [serializeJSONItems, specPrintItems]
  | cons x xs ih =>
    intro depth h
    simp only [serializeJSONItems, specPrintItems]
    rw [h x (List.mem_cons_self x xs) depth]
    rw [ih depth fun y hy => h y (List.mem_cons_of_mem x hy)]

theorem serializeMembers_spec (gap : String) (hgap : gap ≠ "") :
    ∀ (kvs : List (String × JVal)) (depth : Nat),
      (∀ kv ∈ kvs, ∀ d, serializeJSONVal gap (indentN gap d) kv.2 = specPrint gap d kv.2) →
      serializeJSONMembers gap (indentN gap depth) kvs = specPrintMembers gap depth kvs := by
  intro kvs
  induction kvs with
  | nil => intro depth _; simp [serializeJSONMembers, specPrintMembers]
  | cons kv kvs ih =>
    intro depth h
    obtain ⟨k, v⟩ := kv
    simp only [serializeJSONMembers, specPrintMembers]
    rw [ih depth fun y hy => h y (List.mem_cons_of_mem (k, v) hy)]
    have hv := h (k, v) (List.mem_cons_self (k, v) kvs) depth
    simp only at hv
    rw [hv]
    simp [hgap, String.append_assoc]

theorem serialize_refines_spec (gap : String) (hgap : gap ≠ "") :
    ∀ (v : JVal) (depth : Nat),
      serializeJSONVal gap (indentN gap depth) v = specPrint gap depth v := by
  intro v
  induction v using jval_ind with
  | hnull => intro depth; simp [serializeJSONVal, specPrint]
  | hbool b => intro depth; simp [serializeJSONVal, specPrint]
  | hnum n => intro depth; simp [serializeJSONVal, specPrint]
  | hstr s => intro depth; simp [serializeJSONVal, specPrint]
  | harr xs ih =>
    intro depth
    simp only [serializeJSONVal, specPrint]
    have hitems : serializeJSONItems gap (indentN gap depth ++ gap) xs
        = specPrintItems gap (depth + 1) xs := by
      rw [indentN_succ_right]
      exact serializeItems_spec gap xs (depth + 1) fun x hx d => ih x hx d
    rw [hitems]
    simp only [← indentN_succ_right]
    cases xs with
    | nil => simp
    | cons x xs2 => simp [hgap, String.append_assoc]
  | hobj kvs ih =>
    intro depth
    simp only [serializeJSONVal, specPrint]
    have hmem : serializeJSONMembers gap (indentN gap depth ++ gap) kvs
        = specPrintMembers gap (depth + 1) kvs := by
      rw [indentN_succ_right]
      exact serializeMembers_spec gap hgap kvs (depth + 1) fun kv hkv d => ih kv hkv d
    rw [hmem]
    simp only [← indentN_succ_right]
    cases kvs with
    | nil => simp
    | cons kv kvs2 => simp [hgap, String.append_assoc]

theorem string_mk_data (s : String) : String.mk s.data = s := by
  cases s
  rfl

theorem gapOf_eq_self (space : String) (h : space.data.length ≤ 10) : gapOf space = space := by
  rw [gapOf, List.take_of_length_le h, string_mk_data]

theorem specPrint_obj_last (ind : String) (kvs : List (String × JVal)) :
    (specPrint ind 0 (.jobj kvs)).data.getLast? = some cbraceChar := by
  cases kvs with
  | nil =>
    simp [specPrint]
    decide
  | cons kv kvs2 =>
    have h : specPrint ind 0 (.jobj (kv :: kvs2))
        = (obrace ++ "\n" ++ indentN ind (0 + 1)
            ++ joinSep ("," ++ "\n" ++ indentN ind (0 + 1)) (specPrintMembers ind (0 + 1) (kv :: kvs2))
            ++ "\n" ++ indentN ind 0) ++ cbrace := by
      simp [specPrint, String.append_assoc]
    rw [h, String.data_append, List.getLast?_append_of_ne_nil _ (by decide)]
    decide

/-- C3 (amended): fallback determinism.  With no original content the
facade returns exactly the spec-side standard indented printer's output —
keys in iteration order, nonempty arrays and objects multi-line, no
trailing newline (the output ends with the closing brace) — for every
indent string of one to ten characters; no warning is emitted, and the TS
default indent is two spaces. -/
theorem claim_C3_fallback_determinism (kvs : List (String × JVal)) (space : String)
    (h1 : space ≠ "") (h2 : space.data.length ≤ 10) :
    (stringifyJsonPreservingComments kvs none space).1 = specPrint space 0 (.jobj kvs)
    ∧ (stringifyJsonPreservingComments kvs none space).2 = []
    ∧ (stringifyJsonPreservingComments kvs none space).1.data.getLast? = some cbraceChar
    ∧ cbraceChar ≠ '\n'
    ∧ indentSpaceFallbackDefault = "  " := by
  have heq : (stringifyJsonPreservingComments kvs none space).1 = specPrint space 0 (.jobj kvs) := by
    simp only [stringifyJsonPreservingComments, jsonStringify]
    rw [gapOf_eq_self space h2]
    have h := serialize_refines_spec space h1 (.jobj kvs) 0
    simpa [indentN] using h
  refine ⟨heq, rfl, ?_, by decide, rfl⟩
  rw [heq]
  exact specPrint_obj_last space kvs

/-- Witness for C3 at the two-space default indent. -/
theorem claim_C3_fallback_witness :
    (stringifyJsonPreservingComments [("a", .jnum 1)] none "  ").1
      = specPrint "  " 0 (.jobj [("a", .jnum 1)])
    ∧ (stringifyJsonPreservingComments [("a", .jnum 1)] none "  ").2 = []
    ∧ (stringifyJsonPreservingComments [("a", .jnum 1)] none "  ").1.data.getLast?
      = some cbraceChar
    ∧ cbraceChar ≠ '\n'
    ∧ indentSpaceFallbackDefault = "  " :=
  claim_C3_fallback_determinism [("a", .jnum 1)] "  " (by decide) (by decide)

/-- Counterexample for C3 as stated: with the empty indent string,
`JSON.stringify` produces fully compact output, so the facade's result (on
a target containing a nonempty array) differs from the spec printer's and
contains no newline at all — the nonempty array is not rendered
multi-line. -/
theorem claim_C3_counterexample :
    (stringifyJsonPreservingComments [("a", .jarr [.jnum 1])] none "").1
      ≠ specPrint "" 0 (.jobj [("a", .jarr [.jnum 1])])
    ∧ ((stringifyJsonPreservingComments [("a", .jarr [.jnum 1])] none "").1.data.contains '\n')
      = false := by
  constructor
  · decide
  · decide

/-- C4: the facade emits at most one warning; it emits exactly one if and
only if an original was supplied and either parsing threw or the parsed
root is not an object; every warning carries the error payload together
with the fixed message; on the warning path the returned text is the plain
`JSON.stringify` rendering of the target; with no original content no
warning is emitted.  The facade is a total function, so the error never
propagates to the caller on any path. -/
theorem claim_C4_warning_iff_parse_fallback (kvs : List (String × JVal))
    (original : Option (Except String CNode)) (ind : String) :
    (stringifyJsonPreservingComments kvs original ind).2.length ≤ 1
    ∧ ((stringifyJsonPreservingComments kvs original ind).2 ≠ [] ↔
        ((∃ e, original = some (.error e))
          ∨ (∃ root, original = some (.ok root) ∧ asObject root = none)))
    ∧ (∀ w ∈ (stringifyJsonPreservingComments kvs original ind).2, w.2 = warnMessage)
    ∧ ((stringifyJsonPreservingComments kvs original ind).2 ≠ [] →
        (stringifyJsonPreservingComments kvs original ind).1 = jsonStringify (.jobj kvs) ind)
    ∧ (∀ e, original = some (.error e) →
        (stringifyJsonPreservingComments kvs original ind).2 = [(e, warnMessage)])
    ∧ (original = none → (stringifyJsonPreservingComments kvs original ind).2 = []) := by
  cases original with
  | none => simp [stringifyJsonPreservingComments]
  | some r =>
    cases r with
    | error e => simp [stringifyJsonPreservingComments]
    | ok root => cases root <;> simp [stringifyJsonPreservingComments, asObject]

/-! ## Round-trip identity -/

theorem enumFrom_append {α : Type} (pre : List α) :
    ∀ (n : Nat) (x : α) (post : List α),
      enumFrom n (pre ++ x :: post)
        = enumFrom n pre ++ (n + pre.length, x) :: enumFrom (n + pre.length + 1) post := by
  induction pre with
  | nil => intro n x post; simp [enumFrom]
  | cons q qre ih =>
    intro n x post
    simp only [List.cons_append, enumFrom, List.length_cons, List.append_eq]
    rw [ih (n + 1) x post]
    rw [show n + (qre.length + 1) = n + 1 + qre.length by omega]

theorem enumFrom_mem_bounds {α : Type} :
    ∀ (l : List α) (n : Nat) (e : Nat × α), e ∈ enumFrom n l → n ≤ e.1 ∧ e.1 < n + l.length := by
  intro l
  induction l with
  | nil => intro n e he; simp [enumFrom] at he
  | cons x xs ih =>
    intro n e he
    simp only [enumFrom, List.mem_cons] at he
    rcases he with he | he
    · subst he; simp
    · have := ih (n + 1) e he
      simp only [List.length_cons]
      omega

theorem enumFrom_map_snd {α : Type} : ∀ (l : List α) (n : Nat), (enumFrom n l).map Prod.snd = l := by
  intro l
  induction l with
  | nil => intro n; simp [enumFrom]
  | cons x xs ih => intro n; simp [enumFrom, ih (n + 1)]

theorem plainProps_key_mem (props : List CProp) (k : String) (hk : k ∈ propKeys props) :
    entriesHaveKey (plainProps props) k = true := by
  induction props with
  | nil => simp [propKeys] at hk
  | cons p ps ih =>
    simp only [propKeys, List.map_cons, List.mem_cons] at hk
    rcases hk with hk | hk
    · simp [entriesHaveKey, plainProps, hk]
    · have := ih (by simpa [propKeys] using hk)
      simp only [entriesHaveKey, plainProps, List.any_cons] at this ⊢
      simp [this]

theorem initLoopState_plain_toRemove (props : List CProp) :
    (initLoopState props (plainProps props)).2.toRemove = [] := by
  simp only [initLoopState]
  rw [enumFrom_keyIds_fst props 0]
  rw [List.filter_eq_nil_iff]
  intro k hk
  simp [plainProps_key_mem props k hk]

theorem keyIds_findId_pos (p : CProp) :
    ∀ (pre post : List CProp) (n : Nat),
      keysNodup (propKeys (pre ++ p :: post)) = true →
      findId ((enumFrom n (pre ++ p :: post)).map (fun e => (e.2.key, e.1))) p.key
        = some (n + pre.length) := by
  intro pre
  induction pre with
  | nil =>
    intro post n _
    simp [enumFrom, findId, List.find?]
  | cons q qre ih =>
    intro post n hnd
    have hqk : q.key ≠ p.key := by
      simp only [propKeys, List.cons_append, List.map_cons, keysNodup, Bool.and_eq_true,
        Bool.not_eq_true'] at hnd
      intro hcontr
      have hmem : p.key ∈ (qre ++ p :: post).map (fun r => r.key) := by
        simp
      rw [← hcontr] at hmem
      have hnot : q.key ∉ (qre ++ p :: post).map (fun r => r.key) := by
        simpa [propKeys] using hnd.1
      exact hnot hmem
    have hnd2 : keysNodup (propKeys (qre ++ p :: post)) = true := by
      simp only [propKeys, List.cons_append, List.map_cons, keysNodup, Bool.and_eq_true] at hnd
      simpa [propKeys] using hnd.2
    simp only [List.cons_append, enumFrom, List.map_cons, findId, List.find?]
    have hqkf : (q.key == p.key) = false := by simpa using hqk
    simp only [hqkf]
    have := ih post (n + 1) hnd2
    simp only [findId] at this
    simp only [List.length_cons]
    rw [show n + (qre.length + 1) = n + 1 + qre.length by omega]
    exact this

theorem replaceAppend_plain_id (elems : List CElem) (hce : canonElems elems = true) :
    replaceAppend elems (plainElems elems) = elems := by
  induction elems with
  | nil => simp [replaceAppend, plainElems]
  | cons e es ih =>
    simp only [canonElems, Bool.and_eq_true] at hce
    simp only [plainElems, replaceAppend]
    rw [replaceNode_eq_fresh, freshForm_sound e.node hce.1]
    rw [ih hce.2]

theorem plainElems_length (elems : List CElem) : (plainElems elems).length = elems.length := by
  induction elems with
  | nil => simp [plainElems]
  | cons e es ih => simp [plainElems, ih]

theorem enumFrom_length {α : Type} : ∀ (l : List α) (n : Nat), (enumFrom n l).length = l.length := by
  intro l
  induction l with
  | nil => intro n; simp [enumFrom]
  | cons x xs ih => intro n; simp [enumFrom, ih (n + 1)]

theorem updateLoop_plain_identity (props : List CProp)
    (hnd : keysNodup (propKeys props) = true)
    (hupd : ∀ p ∈ props, updatePropertyValue (plainNode p.node) p = p) :
    ∀ (post pre : List CProp) (proc : List String) (nid : Nat),
      props = pre ++ post →
      ∃ ii pr, updateLoop ((enumFrom 0 props).map (fun e => (e.2.key, e.1))) (plainProps post)
        { ps := enumFrom 0 props, insertIndex := pre.length, processed := proc,
          toRemove := [], nextId := nid }
        = { ps := enumFrom 0 props, insertIndex := ii, processed := pr,
            toRemove := [], nextId := nid } := by
  intro post
  induction post with
  | nil =>
    intro pre proc nid hsplit
    exact ⟨pre.length, proc, by simp [plainProps, updateLoop]⟩
  | cons p rest ih =>
    intro pre proc nid hsplit
    subst hsplit
    have hfid : findId ((enumFrom 0 (pre ++ p :: rest)).map (fun e => (e.2.key, e.1))) p.key
        = some pre.length := by
      have h := keyIds_findId_pos p pre rest 0 hnd
      simpa using h
    have henum := enumFrom_append pre 0 p rest
    simp only [Nat.zero_add] at henum
    have hpre : ∀ e ∈ enumFrom 0 pre, e.1 ≠ pre.length := by
      intro e he
      have := enumFrom_mem_bounds pre 0 e he
      omega
    have hpost : ∀ e ∈ enumFrom (pre.length + 1) rest, e.1 ≠ pre.length := by
      intro e he
      have := enumFrom_mem_bounds rest (pre.length + 1) e he
      omega
    have hpe : processEntry ((enumFrom 0 (pre ++ p :: rest)).map (fun e => (e.2.key, e.1)))
        p.key (plainNode p.node)
        { ps := enumFrom 0 (pre ++ p :: rest), insertIndex := pre.length, processed := proc,
          toRemove := [], nextId := nid }
        = { ps := enumFrom 0 (pre ++ p :: rest), insertIndex := pre.length + 1,
            processed := p.key :: proc, toRemove := [], nextId := nid } := by
      simp only [processEntry, hfid]
      rw [henum]
      rw [updateById_append _ _ _ _ _ hpre hpost]
      rw [hupd p (by simp)]
      rw [idxOfId_append _ _ _ _ hpre]
      rw [← henum]
      simp [enumFrom_length]
    simp only [plainProps, updateLoop]
    rw [hpe]
    have hih := ih (pre ++ [p]) (p.key :: proc) nid (by simp)
    simpa using hih

theorem canonProps_mem (props : List CProp) (hc : canonProps props = true) :
    ∀ p ∈ props, canon p.node = true := by
  induction props with
  | nil => intro p hp; simp at hp
  | cons q qs ih =>
    simp only [canonProps, Bool.and_eq_true] at hc
    intro p hp
    rcases List.mem_cons.mp hp with h | h
    · subst h; exact hc.1
    · exact ih hc.2 p h

theorem objNodupProps_mem (props : List CProp) (hn : objNodupProps props = true) :
    ∀ p ∈ props, objNodup p.node = true := by
  induction props with
  | nil => intro p hp; simp at hp
  | cons q qs ih =>
    simp only [objNodupProps, Bool.and_eq_true] at hn
    intro p hp
    rcases List.mem_cons.mp hp with h | h
    · subst h; exact hn.1
    · exact ih hn.2 p h

theorem canonIdentity : ∀ n, canon n = true → objNodup n = true →
    ((∀ p : CProp, p.node = n → updatePropertyValue (plainNode n) p = p)
      ∧ (∀ props tail, n = .cobj props tail →
          updateObject props tail (plainProps props) = (props, tail))) := by
  intro n
  induction n using cnode_ind with
  | hstr lex dv =>
    intro hc _
    refine ⟨?_, fun props tl h => CNode.noConfusion h⟩
    intro p hp
    simp only [canon, beq_iff_eq] at hc
    obtain ⟨l, kl, k, md, nd, ta, tb⟩ := p
    simp only at hp
    subst hp
    simp [plainNode, updatePropertyValue, setPropValue, freshNode, hc]
  | hnum lex v =>
    intro hc _
    refine ⟨?_, fun props tl h => CNode.noConfusion h⟩
    intro p hp
    simp only [canon, beq_iff_eq] at hc
    obtain ⟨l, kl, k, md, nd, ta, tb⟩ := p
    simp only at hp
    subst hp
    simp [plainNode, updatePropertyValue, setPropValue, freshNode, hc]
  | hbool b =>
    intro _ _
    refine ⟨?_, fun props tl h => CNode.noConfusion h⟩
    intro p hp
    obtain ⟨l, kl, k, md, nd, ta, tb⟩ := p
    simp only at hp
    subst hp
    simp [plainNode, updatePropertyValue, setPropValue, freshNode]
  | hnull =>
    intro _ _
    refine ⟨?_, fun props tl h => CNode.noConfusion h⟩
    intro p hp
    obtain ⟨l, kl, k, md, nd, ta, tb⟩ := p
    simp only at hp
    subst hp
    simp [plainNode, updatePropertyValue, setPropValue, freshNode]
  | harr elems tail ihm =>
    intro hc _
    refine ⟨?_, fun props tl h => CNode.noConfusion h⟩
    intro p hp
    simp only [canon] at hc
    obtain ⟨l, kl, k, md, nd, ta, tb⟩ := p
    simp only at hp
    subst hp
    simp only [plainNode, updatePropertyValue, updateArrayValue]
    rw [plainElems_length]
    rw [removeExcessGo_take elems.length elems.length elems rfl, List.take_length]
    rw [replaceAppend_plain_id elems hc]
  | hobj props tail ihm =>
    intro hc hn
    simp only [canon] at hc
    simp only [objNodup, Bool.and_eq_true] at hn
    have hupd : ∀ p ∈ props, updatePropertyValue (plainNode p.node) p = p := by
      intro p hp
      have hcp : canon p.node = true := canonProps_mem props hc p hp
      have hnp : objNodup p.node = true := objNodupProps_mem props hn.2 p hp
      exact (ihm p hp hcp hnp).1 p rfl
    have hobj2 : ∀ props2 tail2, CNode.cobj props tail = .cobj props2 tail2 →
        updateObject props2 tail2 (plainProps props2) = (props2, tail2) := by
      intro props2 tail2 h
      injection h with h1 h2
      subst h1
      subst h2
      have hex : (initLoopState props (plainProps props)).1
          = (enumFrom 0 props).map (fun e => (e.2.key, e.1)) := by
        simp [initLoopState]
      have htr := initLoopState_plain_toRemove props
      have hst : (initLoopState props (plainProps props)).2
          = { ps := enumFrom 0 props, insertIndex := 0, processed := [],
              toRemove := [], nextId := props.length } := by
        simp only [initLoopState] at htr ⊢
        rw [htr]
      obtain ⟨ii, pr, hloop⟩ :=
        updateLoop_plain_identity props hn.1 hupd props [] [] props.length rfl
      simp only [List.nil_append, List.length_nil] at hloop
      simp only [updateObject]
      rw [hex, hst, hloop]
      simp only [removalPhase]
      simp [enumFrom_map_snd]
    exact ⟨by
      intro p hp
      obtain ⟨l, kl, k, md, nd, ta, tb⟩ := p
      simp only at hp
      subst hp
      simp only [plainNode, updatePropertyValue, updateObjectValue]
      rw [hobj2 props tail rfl], hobj2⟩

/-- C1 (amended): round-trip identity for canonical sources.  For every
parsed object CST whose scalar lexemes are canonical and whose array
elements are in fresh rendered form (and whose objects have distinct keys),
calling the facade with the CST's own plain value graph returns the
original text byte for byte and emits no warning — the unconditional
`setValue` calls rewrite each scalar lexeme to the canonical lexeme it
already has, and the array-element `replaceWith` calls rewrite each element
to the fresh form it already has, so no byte changes. -/
theorem claim_C1_roundtrip_identity (props : List CProp) (tail ind : String)
    (hc : canon (.cobj props tail) = true)
    (hn : objNodup (.cobj props tail) = true) :
    stringifyJsonPreservingComments (plainProps props) (some (.ok (.cobj props tail))) ind
      = (renderNode (.cobj props tail), []) := by
  have h := (canonIdentity (.cobj props tail) hc hn).2 props tail rfl
  simp only [stringifyJsonPreservingComments]
  rw [h]

/-- Witness for C1 on the canonical source rendering as an object with one
numeric property. -/
theorem claim_C1_roundtrip_witness :
    stringifyJsonPreservingComments
        (plainProps [{ lead := "\n  ", keyLex := "\"a\"", key := "a", mid := ": ", node := .cnum "1" 1, trailA := "", trailB := "" }])
        (some (.ok (.cobj [{ lead := "\n  ", keyLex := "\"a\"", key := "a", mid := ": ", node := .cnum "1" 1, trailA := "", trailB := "" }] "\n"))) "  "
      = (renderNode (.cobj [{ lead := "\n  ", keyLex := "\"a\"", key := "a", mid := ": ", node := .cnum "1" 1, trailA := "", trailB := "" }] "\n"), []) :=
  claim_C1_roundtrip_identity
    [{ lead := "\n  ", keyLex := "\"a\"", key := "a", mid := ": ", node := .cnum "1" 1, trailA := "", trailB := "" }] "\n" "  " (by rfl) (by rfl)

/-- Counterexample for C1 as stated: on the valid JSONC source rendered by
`rtCounterCst` (value graph `{"a": [[]]}`, inner array written `[ ]`), the
facade's output differs from the source: the array-element replacement
rewrites the container element into fresh form `[]`, dropping its interior
trivia byte. -/
theorem claim_C1_roundtrip_counterexample :
    (stringifyJsonPreservingComments (plainProps rtCounterProps)
        (some (.ok rtCounterCst)) "  ").1
      ≠ renderNode rtCounterCst := by
  simp only [rtCounterCst, rtCounterProps, stringifyJsonPreservingComments]
  simp [updateObject, updateLoop, processEntry, updatePropertyValue, updateArrayValue,
    initLoopState, removalPhase, enumFrom, entriesHaveKey, findId, idxOfId, updateById,
    plainProps, plainNode, plainElems, removeExcessGo, removeAt, replaceAppend,
    replaceNode, isString, isNumber, isBoolean, isNull, isContainer, asStringLit, asNumberLit,
    asBooleanLit, asNullKeyword, asArray, asObject, freshNode, freshElems,
    renderNode, renderElems, renderProps]
  decide
